import Mathlib

/-!
# Verification of the slap-delay engine (src/lib.rs)

Shallow embedding of the `SlapDelay` plugin's delay-line engine.  Audio
samples and parameter values are `f32` in the source; they are embedded as
exact rationals (`ℚ`).  Machine indices (`usize`) are embedded as `ℕ`, with
`usize` subtraction and remainder made explicitly fallible (`Option`) to
model the Rust panics on arithmetic overflow and on remainder by zero.
-/

/-- Rust `as usize` cast applied to a non-negative-or-trapping float value:
truncation toward zero, with negative inputs giving `0`.  (Embeds the
`(... ) as usize` casts at src/lib.rs:82 and src/lib.rs:94-96.) -/
def rustCastUsize (x : ℚ) : ℕ := (⌊x⌋).toNat

/-- The engine state of `struct SlapDelay` (src/lib.rs:4-8): the stereo
delay buffer `delay_buffer : Vec<Vec<f32>>` and the shared write cursor
`write_pos : usize`.  The `params` field (host-facing parameter objects) is
out of the engine core; its already-resolved values are passed as arguments
to `process`. -/
structure SlapDelay where
  delay_buffer : List (List ℚ)
  write_pos : ℕ
deriving Repr, DecidableEq

/-- `Default::default()` for `SlapDelay` (src/lib.rs:19-27):
`delay_buffer = vec![Vec::new(); 2]`, `write_pos = 0`. -/
def freshEngine : SlapDelay :=
  { delay_buffer := List.replicate 2 [], write_pos := 0 }

/-- `Plugin::initialize` (src/lib.rs:75-86), the spec's `configure`:
`max_delay_samples = (sample_rate * 1.001) as usize`;
`delay_buffer = vec![vec![0.0; max_delay_samples]; 2]`; `write_pos = 0`. -/
def configure (st : SlapDelay) (sampleRate : ℚ) : SlapDelay :=
  let maxDelaySamples := rustCastUsize (sampleRate * 1.001)
  { st with
    delay_buffer := List.replicate 2 (List.replicate maxDelaySamples 0)
    write_pos := 0 }

/-- The per-block delay length in samples (src/lib.rs:94-96):
`(delay_time * 0.001 * sample_rate) as usize`, where `delay_time` is the
already-smoothed parameter value and `sample_rate` the transport rate. -/
def delayTimeSamples (delayTime sampleRate : ℚ) : ℕ :=
  rustCastUsize (delayTime * 0.001 * sampleRate)

/-- Rust `usize` subtraction `a - b`: defined only when `b ≤ a`; an
underflowing subtraction is an arithmetic-overflow panic (`none`). -/
def subUsize (a b : ℕ) : Option ℕ := if b ≤ a then some (a - b) else none

/-- Rust `usize` remainder `a % n`: defined only when `n ≠ 0`; remainder by
zero is a panic (`none`). -/
def modUsize (a n : ℕ) : Option ℕ := if n = 0 then none else some (a % n)

/-- The inner channel loop of `process` (src/lib.rs:101-115) for one frame:
iterates over the frame's samples with their channel index `c`, and for each
channel writes the dry sample at `write_pos`, computes
`read_pos = (write_pos + len - delay_time_samples) % len`, reads the delayed
sample, and emits the dry/wet mix.  Out-of-bounds indexing, underflow of the
`usize` subtraction and remainder by zero are panics (`none`). -/
def processChannelsAux (ds : ℕ) (dw : ℚ) :
    List ℚ → ℕ → List (List ℚ) → ℕ → Option (List (List ℚ) × List ℚ)
  | [], _, buf, _ => some (buf, [])
  | s :: rest, c, buf, wp =>
    match buf.get? c with
    | none => none
    | some chBuf =>
      if wp < chBuf.length then
        match subUsize (wp + (chBuf.set wp s).length) ds with
        | none => none
        | some d =>
          match modUsize d (chBuf.set wp s).length with
          | none => none
          | some readPos =>
            match (chBuf.set wp s).get? readPos with
            | none => none
            | some delayed =>
              match processChannelsAux ds dw rest (c + 1)
                  (buf.set c (chBuf.set wp s)) wp with
              | none => none
              | some (buf₂, outs) =>
                some (buf₂, (s * (1 - dw) + delayed * dw) :: outs)
      else none

/-- One iteration of the outer frame loop of `process` (src/lib.rs:100-119):
process all channels of one frame, then advance
`write_pos = (write_pos + 1) % delay_buffer[0].len()`. -/
def frameStep (ds : ℕ) (dw : ℚ) (st : SlapDelay) (frame : List ℚ) :
    Option (SlapDelay × List ℚ) :=
  match processChannelsAux ds dw frame 0 st.delay_buffer st.write_pos with
  | none => none
  | some (buf', outs) =>
    match buf'.get? 0 with
    | none => none
    | some ch0 =>
      match modUsize (st.write_pos + 1) ch0.length with
      | none => none
      | some wp' => some (⟨buf', wp'⟩, outs)

/-- The frame loop of `process` (src/lib.rs:100-119), with the block-constant
delay length `ds` and dry/wet value `dw` fixed for the whole block.  The
input block is frame-major: one inner list of channel samples per frame,
matching `buffer.iter_samples()`. -/
def processFrames (ds : ℕ) (dw : ℚ) :
    SlapDelay → List (List ℚ) → Option (SlapDelay × List (List ℚ))
  | st, [] => some (st, [])
  | st, f :: rest =>
    match frameStep ds dw st f with
    | none => none
    | some (st', out) =>
      match processFrames ds dw st' rest with
      | none => none
      | some (st'', outs) => some (st'', out :: outs)

/-- `Plugin::process` (src/lib.rs:88-122): computes `delay_time_samples` and
`dry_wet` once per block (src/lib.rs:94-98), then runs the frame loop. -/
def process (st : SlapDelay) (delayTime sampleRate dryWet : ℚ)
    (input : List (List ℚ)) : Option (SlapDelay × List (List ℚ)) :=
  processFrames (delayTimeSamples delayTime sampleRate) dryWet st input

/-- The buffer length of the engine: length of channel 0's delay buffer
(the modulus used at src/lib.rs:118). -/
def bufLen (st : SlapDelay) : ℕ := st.delay_buffer.headI.length

/-- The delayed sample read for one channel once the dry sample `s` has been
written at `wp`: the written buffer at
`read_pos = (wp + len - ds) % len` (src/lib.rs:103-111). -/
def delayedSample (ds wp : ℕ) (chBuf : List ℚ) (s : ℚ) : ℚ :=
  (chBuf.set wp s).getD ((wp + chBuf.length - ds) % chBuf.length) 0

/-- The mixed output sample for one channel (src/lib.rs:114):
`dry * (1 - dw) + delayed * dw`. -/
def mixOut (ds : ℕ) (dw : ℚ) (wp : ℕ) (chBuf : List ℚ) (s : ℚ) : ℚ :=
  s * (1 - dw) + delayedSample ds wp chBuf s * dw

/-- The delay buffers after the writes of one frame: channel `c + j` gets
its element at `wp` replaced by the frame's `j`-th dry sample. -/
def writeAll (wp : ℕ) : List ℚ → ℕ → List (List ℚ) → List (List ℚ)
  | [], _, buf => buf
  | s :: rest, c, buf => writeAll wp rest (c + 1) (buf.set c ((buf.getD c []).set wp s))

/-- The output frame produced by the channel loop: the mix of each channel's
dry sample against its (written) delay buffer. -/
def mixFrame (ds : ℕ) (dw : ℚ) (wp : ℕ) (buf : List (List ℚ)) :
    List ℚ → ℕ → List ℚ
  | [], _ => []
  | s :: rest, c =>
    mixOut ds dw wp (buf.getD c []) s :: mixFrame ds dw wp buf rest (c + 1)

/-- The engine state reached after processing the first `i` frames of the
block (the state in which frame `i` is then processed). -/
def stateAfter (ds : ℕ) (dw : ℚ) (st : SlapDelay) (input : List (List ℚ))
    (i : ℕ) : SlapDelay :=
  ((processFrames ds dw st (input.take i)).map Prod.fst).getD st

/-- The structural engine invariant: two channel buffers, all of length `L`,
write cursor inside `[0, L)`. -/
def EngineInv (st : SlapDelay) (L : ℕ) : Prop :=
  st.delay_buffer.length = 2 ∧ (∀ ch ∈ st.delay_buffer, ch.length = L) ∧
    st.write_pos < L

/-- Modelled from the spec (§4.1 `process_block`, step 1): the spec's
per-frame delay length, `round_to_int(delay_time_ms * 0.001 * sample_rate)`
clamped into `[0, buffer_length - 1]`.  This definition follows the spec's
words (the source has no clamp and truncates); it exists to be compared
against the source-derived `process`. -/
def specDelaySamples (sampleRate dtms : ℚ) (L : ℕ) : ℕ :=
  min (round (dtms * 0.001 * sampleRate)).toNat (L - 1)

/-- Modelled from the spec (§4.1 `process_block`, steps 2-5): the per-channel
work of one frame under the spec's algorithm, using the clamped delay length
(total: the clamp keeps every index in bounds). -/
def specChannels (ds : ℕ) (dw : ℚ) : List ℚ → ℕ → List (List ℚ) → ℕ →
    List (List ℚ) × List ℚ
  | [], _, buf, _ => (buf, [])
  | s :: rest, c, buf, wp =>
    let chBuf := buf.getD c []
    let chBuf' := chBuf.set wp s
    let buf' := buf.set c chBuf'
    let readPos := (wp + chBuf'.length - ds) % chBuf'.length
    let delayed := chBuf'.getD readPos 0
    let res := specChannels ds dw rest (c + 1) buf' wp
    (res.1, (s * (1 - dw) + delayed * dw) :: res.2)

/-- Modelled from the spec (§4.1 `process_block`): the spec's per-frame
algorithm, indexing the parameter streams `delay_time_ms_per_frame` and
`dry_wet_per_frame` at each frame (step 1 and step 5), and advancing the
shared cursor once per frame (step 6). -/
def specProcess (sampleRate : ℚ) :
    SlapDelay → List (List ℚ) → List ℚ → List ℚ → SlapDelay × List (List ℚ)
  | st, [], _, _ => (st, [])
  | st, f :: rest, dts, dws =>
    let L := bufLen st
    let ds := specDelaySamples sampleRate dts.headI L
    let res := specChannels ds dws.headI f 0 st.delay_buffer st.write_pos
    let st' : SlapDelay := ⟨res.1, (st.write_pos + 1) % L⟩
    let res' := specProcess sampleRate st' rest dts.tail dws.tail
    (res'.1, res.2 :: res'.2)

/-! ## Basic list lemmas -/

theorem getD_set_eq_of_lt {α : Type} (l : List α) (n : ℕ) (x d : α)
    (h : n < l.length) : (l.set n x).getD n d = x := by
  rw [List.getD_eq_getElem _ _ (by simpa using h)]
  simp

theorem getD_set_neq {α : Type} (l : List α) (n m : ℕ) (x d : α) (h : n ≠ m) :
    (l.set n x).getD m d = l.getD m d := by
  rw [List.getD_eq_getD_get?, List.getD_eq_getD_get?, List.get?_eq_getElem?,
    List.get?_eq_getElem?, List.getElem?_set_ne h]

theorem getD_replicate_of_lt {α : Type} (n m : ℕ) (x d : α) (h : m < n) :
    (List.replicate n x).getD m d = x := by
  rw [List.getD_eq_getElem _ _ (by simpa using h)]
  simp

theorem listEq_of_getD {α : Type} (d : α) :
    ∀ (xs ys : List α), xs.length = ys.length →
      (∀ j < xs.length, xs.getD j d = ys.getD j d) → xs = ys := by
  intro xs
  induction xs with
  | nil =>
    intro ys hlen _
    exact (List.eq_nil_of_length_eq_zero hlen.symm).symm
  | cons x xs ih =>
    intro ys hlen hj
    cases ys with
    | nil => simp at hlen
    | cons y ys =>
      have h0 := hj 0 (by simp)
      simp only [List.getD_cons_zero] at h0
      subst h0
      have : xs = ys := by
        apply ih ys (by simpa using hlen)
        intro j hjlt
        have := hj (j + 1) (by simpa using Nat.succ_lt_succ hjlt)
        simpa using this
      rw [this]

/-! ## Lemmas about `writeAll` and `mixFrame` -/

theorem writeAll_length (wp : ℕ) (f : List ℚ) :
    ∀ (c : ℕ) (buf : List (List ℚ)), (writeAll wp f c buf).length = buf.length := by
  induction f with
  | nil => intro c buf; rfl
  | cons s rest ih =>
    intro c buf
    rw [writeAll, ih]
    simp

theorem writeAll_getD (wp : ℕ) (f : List ℚ) :
    ∀ (c j : ℕ) (buf : List (List ℚ)),
      (writeAll wp f c buf).getD j [] =
        if c ≤ j ∧ j < c + f.length then
          (buf.getD j []).set wp (f.getD (j - c) 0)
        else buf.getD j [] := by
  induction f with
  | nil =>
    intro c j buf
    rw [writeAll, if_neg (by simp only [List.length_nil, Nat.add_zero]; omega)]
  | cons s rest ih =>
    intro c j buf
    rw [writeAll, ih]
    rcases eq_or_ne j c with rfl | hne
    · rw [if_neg (by omega), if_pos (by simp only [List.length_cons]; omega)]
      simp only [Nat.sub_self, List.getD_cons_zero]
      rcases Nat.lt_or_ge j buf.length with h | h
      · exact getD_set_eq_of_lt _ _ _ _ (by simpa using h)
      · rw [List.set_eq_of_length_le h, List.getD_eq_default _ _ h]
        simp
    · rw [getD_set_neq _ _ _ _ _ (Ne.symm hne)]
      by_cases hc : c + 1 ≤ j ∧ j < c + 1 + rest.length
      · rw [if_pos hc, if_pos (by simp only [List.length_cons]; omega)]
        have hidx : j - c = (j - (c + 1)) + 1 := by omega
        rw [hidx, List.getD_cons_succ]
      · rw [if_neg hc, if_neg (by simp only [List.length_cons]; omega)]

theorem writeAll_getD_length (wp : ℕ) (f : List ℚ) (c j : ℕ) (buf : List (List ℚ)) :
    ((writeAll wp f c buf).getD j []).length = (buf.getD j []).length := by
  rw [writeAll_getD]
  split <;> simp

theorem writeAll_forall_length (wp L : ℕ) (f : List ℚ) :
    ∀ (c : ℕ) (buf : List (List ℚ)),
      (∀ ch ∈ buf, ch.length = L) → (∀ j < f.length, c + j < buf.length) →
      ∀ ch ∈ writeAll wp f c buf, ch.length = L := by
  induction f with
  | nil => intro c buf hbuf _; exact hbuf
  | cons s rest ih =>
    intro c buf hbuf hidx
    rw [writeAll]
    have hc : c < buf.length := by have := hidx 0 (by simp); omega
    have hmem : buf.getD c [] ∈ buf := by
      rw [List.getD_eq_getElem _ _ hc]
      exact List.getElem_mem _
    apply ih (c + 1)
    · intro ch hch
      rcases List.mem_or_eq_of_mem_set hch with h | h
      · exact hbuf ch h
      · rw [h, List.length_set]
        exact hbuf _ hmem
    · intro j hj
      rw [List.length_set]
      have := hidx (j + 1) (by simp only [List.length_cons]; omega)
      omega

theorem mixFrame_length (ds : ℕ) (dw : ℚ) (wp : ℕ) (buf : List (List ℚ))
    (f : List ℚ) : ∀ c, (mixFrame ds dw wp buf f c).length = f.length := by
  induction f with
  | nil => intro c; rfl
  | cons s rest ih => intro c; rw [mixFrame]; simp [ih]

theorem mixFrame_getD (ds : ℕ) (dw : ℚ) (wp : ℕ) (buf : List (List ℚ))
    (f : List ℚ) : ∀ c j, j < f.length →
      (mixFrame ds dw wp buf f c).getD j 0 =
        mixOut ds dw wp (buf.getD (c + j) []) (f.getD j 0) := by
  induction f with
  | nil => intro c j hj; simp at hj
  | cons s rest ih =>
    intro c j hj
    cases j with
    | zero => simp [mixFrame]
    | succ m =>
      rw [mixFrame]
      simp only [List.getD_cons_succ]
      rw [ih (c + 1) m (by simpa using Nat.lt_of_succ_lt_succ hj)]
      have : c + 1 + m = c + (m + 1) := by omega
      rw [this]

/-! ## Characterization of the channel loop -/

theorem mixFrame_congr (ds : ℕ) (dw : ℚ) (wp : ℕ) (buf buf' : List (List ℚ))
    (f : List ℚ) : ∀ c, (∀ j, c ≤ j → buf.getD j [] = buf'.getD j []) →
      mixFrame ds dw wp buf f c = mixFrame ds dw wp buf' f c := by
  induction f with
  | nil => intro c _; rfl
  | cons s rest ih =>
    intro c hc
    rw [mixFrame, mixFrame, hc c (le_refl c), ih (c + 1) (fun j hj => hc j (by omega))]

theorem processChannelsAux_some_char (ds : ℕ) (dw : ℚ) :
    ∀ (f : List ℚ) (c : ℕ) (buf buf₂ : List (List ℚ)) (wp : ℕ) (outs : List ℚ),
      processChannelsAux ds dw f c buf wp = some (buf₂, outs) →
      buf₂ = writeAll wp f c buf ∧ outs = mixFrame ds dw wp buf f c ∧
        (∀ j < f.length, c + j < buf.length) ∧
        (∀ j < f.length, wp < (buf.getD (c + j) []).length ∧
          ds ≤ wp + (buf.getD (c + j) []).length) := by
  intro f
  induction f with
  | nil =>
    intro c buf buf₂ wp outs h
    rw [processChannelsAux] at h
    simp only [Option.some.injEq, Prod.mk.injEq] at h
    obtain ⟨h1, h2⟩ := h
    exact ⟨h1.symm, h2.symm, by intro j hj; simp at hj, by intro j hj; simp at hj⟩
  | cons s rest ih =>
    intro c buf buf₂ wp outs h
    rw [processChannelsAux] at h
    cases hg : buf.get? c with
    | none =>
      simp only [hg] at h
      exact Option.noConfusion h
    | some chBuf =>
      simp only [hg] at h
      by_cases hwp : wp < chBuf.length
      · rw [if_pos hwp] at h
        have hcd : buf.getD c [] = chBuf := by
          rw [List.getD_eq_getD_get?, hg]
          rfl
        have hclt : c < buf.length := by
          rcases Nat.lt_or_ge c buf.length with hlt | hge
          · exact hlt
          · rw [List.get?_eq_none.2 hge] at hg
            cases hg
        by_cases hdsle : ds ≤ wp + (chBuf.set wp s).length
        · have hsub : subUsize (wp + (chBuf.set wp s).length) ds =
              some (wp + (chBuf.set wp s).length - ds) := by
            rw [subUsize, if_pos hdsle]
          simp only [hsub] at h
          have hlen0 : ¬ (chBuf.set wp s).length = 0 := by
            rw [List.length_set]
            omega
          have hmod : modUsize (wp + (chBuf.set wp s).length - ds)
              (chBuf.set wp s).length =
              some ((wp + (chBuf.set wp s).length - ds) % (chBuf.set wp s).length) := by
            rw [modUsize, if_neg hlen0]
          simp only [hmod] at h
          have hrp : (wp + (chBuf.set wp s).length - ds) % (chBuf.set wp s).length <
              (chBuf.set wp s).length := Nat.mod_lt _ (by omega)
          simp only [List.get?_eq_getElem?, List.getElem?_eq_getElem hrp] at h
          cases hrec : processChannelsAux ds dw rest (c + 1)
              (buf.set c (chBuf.set wp s)) wp with
          | none =>
            simp only [hrec] at h
            exact Option.noConfusion h
          | some pr =>
            obtain ⟨buf₃, outs₃⟩ := pr
            simp only [hrec, Option.some.injEq, Prod.mk.injEq] at h
            obtain ⟨hb, ho⟩ := h
            obtain ⟨ih1, ih2, ih3, ih4⟩ := ih (c + 1) (buf.set c (chBuf.set wp s))
              buf₃ wp outs₃ hrec
            refine ⟨?_, ?_, ?_, ?_⟩
            · rw [← hb, ih1, writeAll, hcd]
            · rw [← ho, mixFrame, hcd]
              have hhead : (chBuf.set wp s)[(wp + (chBuf.set wp s).length - ds) %
                  (chBuf.set wp s).length] = delayedSample ds wp chBuf s := by
                rw [delayedSample,
                  List.getD_eq_getElem _ _ (by rw [List.length_set] at hrp ⊢; exact hrp)]
                simp only [List.length_set]
              rw [hhead, ih2,
                mixFrame_congr ds dw wp (buf.set c (chBuf.set wp s)) buf rest (c + 1)
                  (fun j hj => getD_set_neq _ _ _ _ _ (by omega))]
              rfl
            · intro j hj
              cases j with
              | zero => simpa using hclt
              | succ m =>
                have := ih3 m (by simpa using Nat.lt_of_succ_lt_succ hj)
                rw [List.length_set] at this
                omega
            · intro j hj
              cases j with
              | zero =>
                rw [List.length_set] at hdsle
                simp only [Nat.add_zero]
                rw [hcd]
                exact ⟨hwp, hdsle⟩
              | succ m =>
                have hm := ih4 m (by simpa using Nat.lt_of_succ_lt_succ hj)
                rw [getD_set_neq _ _ _ _ _ (by omega)] at hm
                have hidx : c + 1 + m = c + (m + 1) := by omega
                rw [hidx] at hm
                exact hm
        · have hsub : subUsize (wp + (chBuf.set wp s).length) ds = none := by
            rw [subUsize, if_neg hdsle]
          simp only [hsub] at h
          exact Option.noConfusion h
      · rw [if_neg hwp] at h
        simp at h

/-! ## Characterization of one frame and of the frame loop -/

theorem frameStep_some_char (ds : ℕ) (dw : ℚ) (st st₂ : SlapDelay) (f o : List ℚ)
    (h : frameStep ds dw st f = some (st₂, o)) :
    st₂.delay_buffer = writeAll st.write_pos f 0 st.delay_buffer ∧
    o = mixFrame ds dw st.write_pos st.delay_buffer f 0 ∧
    (∀ j < f.length, j < st.delay_buffer.length) ∧
    (∀ j < f.length, st.write_pos < (st.delay_buffer.getD j []).length ∧
      ds ≤ st.write_pos + (st.delay_buffer.getD j []).length) ∧
    0 < st₂.delay_buffer.length ∧ 0 < (st₂.delay_buffer.getD 0 []).length ∧
    st₂.write_pos = (st.write_pos + 1) % (st₂.delay_buffer.getD 0 []).length := by
  rw [frameStep] at h
  cases hpc : processChannelsAux ds dw f 0 st.delay_buffer st.write_pos with
  | none =>
    simp only [hpc] at h
    exact Option.noConfusion h
  | some pr =>
    obtain ⟨buf', outs⟩ := pr
    simp only [hpc] at h
    cases hg0 : buf'.get? 0 with
    | none =>
      simp only [hg0] at h
      exact Option.noConfusion h
    | some ch0 =>
      simp only [hg0] at h
      by_cases hl0 : ch0.length = 0
      · simp only [modUsize, if_pos hl0] at h
        exact Option.noConfusion h
      · simp only [modUsize, if_neg hl0, Option.some.injEq, Prod.mk.injEq] at h
        obtain ⟨hst, ho⟩ := h
        subst hst
        obtain ⟨h1, h2, h3, h4⟩ := processChannelsAux_some_char ds dw f 0
          st.delay_buffer buf' st.write_pos outs hpc
        simp only [Nat.zero_add] at h3 h4
        have hch0 : buf'.getD 0 [] = ch0 := by
          rw [List.getD_eq_getD_get?, hg0]
          rfl
        have h0lt : 0 < buf'.length := by
          rcases Nat.lt_or_ge 0 buf'.length with hlt | hge
          · exact hlt
          · rw [List.get?_eq_none.2 hge] at hg0
            cases hg0
        exact ⟨h1, ho.symm.trans h2, h3, h4, h0lt, by rw [hch0]; omega, by rw [hch0]⟩

theorem processFrames_cons_some (ds : ℕ) (dw : ℚ) (st st' : SlapDelay)
    (f : List ℚ) (rest out : List (List ℚ))
    (h : processFrames ds dw st (f :: rest) = some (st', out)) :
    ∃ st₁ o outs, frameStep ds dw st f = some (st₁, o) ∧
      processFrames ds dw st₁ rest = some (st', outs) ∧ out = o :: outs := by
  rw [processFrames] at h
  cases hfs : frameStep ds dw st f with
  | none =>
    simp only [hfs] at h
    exact Option.noConfusion h
  | some pr =>
    obtain ⟨st₁, o⟩ := pr
    simp only [hfs] at h
    cases hpf : processFrames ds dw st₁ rest with
    | none =>
      simp only [hpf] at h
      exact Option.noConfusion h
    | some pr2 =>
      obtain ⟨st₂, outs⟩ := pr2
      simp only [hpf, Option.some.injEq, Prod.mk.injEq] at h
      obtain ⟨hst, ho⟩ := h
      subst hst
      exact ⟨st₁, o, outs, rfl, hpf, ho.symm⟩

theorem processFrames_nil_some (ds : ℕ) (dw : ℚ) (st : SlapDelay) :
    processFrames ds dw st [] = some (st, []) := rfl

theorem processFrames_some_struct (ds : ℕ) (dw : ℚ) :
    ∀ (input : List (List ℚ)) (st st' : SlapDelay) (out : List (List ℚ)),
      processFrames ds dw st input = some (st', out) →
      st'.delay_buffer.length = st.delay_buffer.length ∧
      (∀ c, (st'.delay_buffer.getD c []).length =
        (st.delay_buffer.getD c []).length) ∧
      out.length = input.length := by
  intro input
  induction input with
  | nil =>
    intro st st' out h
    rw [processFrames_nil_some] at h
    simp only [Option.some.injEq, Prod.mk.injEq] at h
    obtain ⟨rfl, rfl⟩ := h
    exact ⟨rfl, fun c => rfl, rfl⟩
  | cons f rest ih =>
    intro st st' out h
    obtain ⟨st₁, o, outs, hfs, hpf, rfl⟩ :=
      processFrames_cons_some ds dw st st' f rest out h
    obtain ⟨hbuf, -, -, -, -, -, -⟩ := frameStep_some_char ds dw st st₁ f o hfs
    obtain ⟨g1, g2, g3⟩ := ih st₁ st' outs hpf
    refine ⟨?_, ?_, ?_⟩
    · rw [g1, hbuf, writeAll_length]
    · intro c
      rw [g2 c, hbuf, writeAll_getD_length]
    · simp [g3]

theorem processFrames_some_trace (ds : ℕ) (dw : ℚ) :
    ∀ (input : List (List ℚ)) (st st' : SlapDelay) (out : List (List ℚ)),
      processFrames ds dw st input = some (st', out) →
      out.length = input.length ∧
      ∃ sts : ℕ → SlapDelay, sts 0 = st ∧ sts input.length = st' ∧
        ∀ i < input.length,
          frameStep ds dw (sts i) (input.getD i []) =
            some (sts (i + 1), out.getD i []) := by
  intro input
  induction input with
  | nil =>
    intro st st' out h
    rw [processFrames_nil_some] at h
    simp only [Option.some.injEq, Prod.mk.injEq] at h
    obtain ⟨rfl, rfl⟩ := h
    exact ⟨rfl, fun _ => st, rfl, rfl, by intro i hi; simp at hi⟩
  | cons f rest ih =>
    intro st st' out h
    obtain ⟨st₁, o, outs, hfs, hpf, rfl⟩ :=
      processFrames_cons_some ds dw st st' f rest out h
    obtain ⟨hlen, sts, hs0, hsl, hstep⟩ := ih st₁ st' outs hpf
    refine ⟨by simp [hlen], fun n => match n with | 0 => st | m + 1 => sts m,
      rfl, hsl, ?_⟩
    intro i hi
    cases i with
    | zero =>
      simp only [List.getD_cons_zero]
      rw [hs0]
      exact hfs
    | succ m =>
      simp only [List.getD_cons_succ]
      exact hstep m (by simp only [List.length_cons] at hi; omega)

theorem processFrames_take_some (ds : ℕ) (dw : ℚ) :
    ∀ (input : List (List ℚ)) (st st' : SlapDelay) (out : List (List ℚ)),
      processFrames ds dw st input = some (st', out) →
      ∀ m, ∃ stm, processFrames ds dw st (input.take m) = some (stm, out.take m) := by
  intro input
  induction input with
  | nil =>
    intro st st' out h m
    rw [processFrames_nil_some] at h
    simp only [Option.some.injEq, Prod.mk.injEq] at h
    obtain ⟨rfl, rfl⟩ := h
    simp only [List.take_nil]
    exact ⟨st, rfl⟩
  | cons f rest ih =>
    intro st st' out h m
    obtain ⟨st₁, o, outs, hfs, hpf, rfl⟩ :=
      processFrames_cons_some ds dw st st' f rest out h
    cases m with
    | zero => exact ⟨st, rfl⟩
    | succ k =>
      obtain ⟨stm, hm⟩ := ih st₁ st' outs hpf k
      refine ⟨stm, ?_⟩
      simp only [List.take_succ_cons]
      rw [processFrames]
      simp only [hfs, hm]

theorem processFrames_some_out (ds : ℕ) (dw : ℚ) :
    ∀ (input : List (List ℚ)) (st st' : SlapDelay) (out : List (List ℚ)),
      processFrames ds dw st input = some (st', out) →
      ∀ i < input.length,
        out.getD i [] =
          mixFrame ds dw (stateAfter ds dw st input i).write_pos
            (stateAfter ds dw st input i).delay_buffer (input.getD i []) 0 := by
  intro input
  induction input with
  | nil => intro st st' out h i hi; simp at hi
  | cons f rest ih =>
    intro st st' out h i hi
    obtain ⟨st₁, o, outs, hfs, hpf, rfl⟩ :=
      processFrames_cons_some ds dw st st' f rest out h
    cases i with
    | zero =>
      obtain ⟨-, hmix, -, -, -, -, -⟩ := frameStep_some_char ds dw st st₁ f o hfs
      simpa using hmix
    | succ m =>
      have hm : m < rest.length := by
        simp only [List.length_cons] at hi
        omega
      have hsa : stateAfter ds dw st (f :: rest) (m + 1) =
          stateAfter ds dw st₁ rest m := by
        rw [stateAfter, stateAfter, List.take_succ_cons]
        obtain ⟨stm, hstm⟩ := processFrames_take_some ds dw rest st₁ st' outs hpf m
        have hcons : processFrames ds dw st (f :: rest.take m) =
            some (stm, o :: outs.take m) := by
          rw [processFrames]
          simp only [hfs, hstm]
        rw [hcons, hstm]
        rfl
      rw [hsa]
      simp only [List.getD_cons_succ]
      exact ih st₁ st' outs hpf m hm

theorem mixFrame_id (wp : ℕ) (buf : List (List ℚ)) :
    ∀ (f : List ℚ) (c : ℕ),
      (∀ j < f.length, wp < (buf.getD (c + j) []).length) →
      mixFrame 0 1 wp buf f c = f := by
  intro f
  induction f with
  | nil => intro c _; rfl
  | cons s rest ih =>
    intro c hv
    rw [mixFrame]
    have h0 : wp < (buf.getD c []).length := by
      simpa using hv 0 (by simp)
    have hmix : mixOut 0 1 wp (buf.getD c []) s = s := by
      rw [mixOut, delayedSample, Nat.sub_zero, Nat.add_mod_right,
        Nat.mod_eq_of_lt h0, getD_set_eq_of_lt _ _ _ _ (by simpa using h0)]
      norm_num
    rw [hmix, ih (c + 1) ?_]
    intro j hj
    have hidx : c + 1 + j = c + (j + 1) := by omega
    rw [hidx]
    exact hv (j + 1) (by simp only [List.length_cons]; omega)

theorem processFrames_zero_delay :
    ∀ (input : List (List ℚ)) (st st' : SlapDelay) (out : List (List ℚ)),
      processFrames 0 1 st input = some (st', out) → out = input := by
  intro input
  induction input with
  | nil =>
    intro st st' out h
    rw [processFrames_nil_some] at h
    simp only [Option.some.injEq, Prod.mk.injEq] at h
    exact h.2.symm
  | cons f rest ih =>
    intro st st' out h
    obtain ⟨st₁, o, outs, hfs, hpf, rfl⟩ :=
      processFrames_cons_some 0 1 st st' f rest out h
    obtain ⟨-, hmix, -, hv, -, -, -⟩ := frameStep_some_char 0 1 st st₁ f o hfs
    have ho : o = f := by
      rw [hmix]
      exact mixFrame_id st.write_pos st.delay_buffer f 0
        (fun j hj => by simpa using (hv j hj).1)
    rw [ho, ih st₁ st' outs hpf]

/-! ## Success of the loops under the engine invariant -/

theorem processChannelsAux_isSome (ds : ℕ) (dw : ℚ) (L : ℕ) :
    ∀ (f : List ℚ) (c : ℕ) (buf : List (List ℚ)) (wp : ℕ),
      (∀ ch ∈ buf, ch.length = L) → wp < L → ds ≤ wp + L →
      c + f.length ≤ buf.length →
      ∃ buf₂ outs, processChannelsAux ds dw f c buf wp = some (buf₂, outs) := by
  intro f
  induction f with
  | nil => intro c buf wp _ _ _ _; exact ⟨buf, [], rfl⟩
  | cons s rest ih =>
    intro c buf wp hlen hwp hds hc
    have hclt : c < buf.length := by
      simp only [List.length_cons] at hc
      omega
    have hget : buf.get? c = some (buf.getD c []) := by
      rw [List.get?_eq_getElem?, List.getElem?_eq_getElem hclt,
        List.getD_eq_getElem _ _ hclt]
    have hmem : buf.getD c [] ∈ buf := by
      rw [List.getD_eq_getElem _ _ hclt]
      exact List.getElem_mem _
    have hchlen : (buf.getD c []).length = L := hlen _ hmem
    rw [processChannelsAux]
    simp only [hget]
    rw [if_pos (show wp < (buf.getD c []).length by rw [hchlen]; exact hwp)]
    have hsub : subUsize (wp + ((buf.getD c []).set wp s).length) ds =
        some (wp + ((buf.getD c []).set wp s).length - ds) := by
      rw [subUsize, if_pos (by rw [List.length_set, hchlen]; exact hds)]
    simp only [hsub]
    have hmod : modUsize (wp + ((buf.getD c []).set wp s).length - ds)
        ((buf.getD c []).set wp s).length =
        some ((wp + ((buf.getD c []).set wp s).length - ds) %
          ((buf.getD c []).set wp s).length) := by
      rw [modUsize, if_neg (by rw [List.length_set, hchlen]; omega)]
    simp only [hmod]
    have hrp : (wp + ((buf.getD c []).set wp s).length - ds) %
        ((buf.getD c []).set wp s).length < ((buf.getD c []).set wp s).length :=
      Nat.mod_lt _ (by rw [List.length_set, hchlen]; omega)
    simp only [List.get?_eq_getElem?, List.getElem?_eq_getElem hrp]
    obtain ⟨buf₂, outs, hrec⟩ := ih (c + 1) (buf.set c ((buf.getD c []).set wp s)) wp
      (by
        intro ch hch
        rcases List.mem_or_eq_of_mem_set hch with h | h
        · exact hlen ch h
        · rw [h, List.length_set]
          exact hchlen)
      hwp hds
      (by
        rw [List.length_set]
        simp only [List.length_cons] at hc
        omega)
    simp only [hrec]
    exact ⟨buf₂, _, rfl⟩

theorem frameStep_inv_some (ds : ℕ) (dw : ℚ) (L : ℕ) (st : SlapDelay)
    (f : List ℚ) (hinv : EngineInv st L) (hds : ds ≤ L) (hf : f.length ≤ 2) :
    ∃ st₂ o, frameStep ds dw st f = some (st₂, o) ∧ EngineInv st₂ L ∧
      st₂.write_pos = (st.write_pos + 1) % L ∧ o.length = f.length := by
  obtain ⟨h2, hlen, hwp⟩ := hinv
  have hL : 0 < L := by omega
  obtain ⟨buf₂, outs, hpc⟩ := processChannelsAux_isSome ds dw L f 0
    st.delay_buffer st.write_pos hlen hwp (by omega) (by omega)
  obtain ⟨hb, ho, -, -⟩ := processChannelsAux_some_char ds dw f 0
    st.delay_buffer buf₂ st.write_pos outs hpc
  have hlen₂ : ∀ ch ∈ buf₂, ch.length = L := by
    rw [hb]
    exact writeAll_forall_length st.write_pos L f 0 st.delay_buffer hlen
      (fun j hj => by omega)
  have hblen : buf₂.length = 2 := by
    rw [hb, writeAll_length, h2]
  have h0lt : 0 < buf₂.length := by omega
  have hget0 : buf₂.get? 0 = some (buf₂.getD 0 []) := by
    rw [List.get?_eq_getElem?, List.getElem?_eq_getElem h0lt,
      List.getD_eq_getElem _ _ h0lt]
  have hmem0 : buf₂.getD 0 [] ∈ buf₂ := by
    rw [List.getD_eq_getElem _ _ h0lt]
    exact List.getElem_mem _
  have hch0len : (buf₂.getD 0 []).length = L := hlen₂ _ hmem0
  rw [frameStep]
  simp only [hpc, hget0]
  have hmod : modUsize (st.write_pos + 1) (buf₂.getD 0 []).length =
      some ((st.write_pos + 1) % (buf₂.getD 0 []).length) := by
    rw [modUsize, if_neg (by rw [hch0len]; omega)]
  simp only [hmod]
  refine ⟨⟨buf₂, (st.write_pos + 1) % (buf₂.getD 0 []).length⟩, outs, rfl,
    ⟨hblen, hlen₂, ?_⟩, ?_, ?_⟩
  · show (st.write_pos + 1) % (buf₂.getD 0 []).length < L
    rw [hch0len]
    exact Nat.mod_lt _ hL
  · show (st.write_pos + 1) % (buf₂.getD 0 []).length = (st.write_pos + 1) % L
    rw [hch0len]
  · rw [ho, mixFrame_length]

theorem processFrames_inv_some (ds : ℕ) (dw : ℚ) (L : ℕ) (hds : ds ≤ L) :
    ∀ (input : List (List ℚ)) (st : SlapDelay),
      EngineInv st L → (∀ f ∈ input, f.length ≤ 2) →
      ∃ st' out, processFrames ds dw st input = some (st', out) ∧
        EngineInv st' L ∧
        st'.write_pos = (st.write_pos + input.length) % L ∧
        out.length = input.length := by
  intro input
  induction input with
  | nil =>
    intro st hinv _
    refine ⟨st, [], rfl, hinv, ?_, rfl⟩
    rw [List.length_nil, Nat.add_zero, Nat.mod_eq_of_lt hinv.2.2]
  | cons f rest ih =>
    intro st hinv hfl
    obtain ⟨st₁, o, hfs, hinv₁, hwp₁, holen⟩ :=
      frameStep_inv_some ds dw L st f hinv hds (hfl f (by simp))
    obtain ⟨st', outs, hpf, hinv', hwp', hoslen⟩ :=
      ih st₁ hinv₁ (fun g hg => hfl g (by simp [hg]))
    refine ⟨st', o :: outs, ?_, hinv', ?_, by simp [hoslen]⟩
    · rw [processFrames]
      simp only [hfs, hpf]
    · rw [hwp', hwp₁, List.length_cons, Nat.mod_add_mod]
      congr 1
      omega

/-! ## Impulse response of a fresh engine at full wet mix -/

/-- Expected output at frame `i`, channel `c`, when a freshly configured
(zero-filled) engine processes the block `full` with `dry_wet = 1` and a
constant delay of `ds` samples: the input `ds` frames earlier, or silence
before the delay has elapsed. -/
def impulseRead (full : List (List ℚ)) (ds i c : ℕ) : ℚ :=
  if ds ≤ i then (full.getD (i - ds) []).getD c 0 else 0

theorem mixOut_impulse (L ds k c : ℕ) (full : List (List ℚ)) (chBuf : List ℚ)
    (s : ℚ) (hlen : chBuf.length = L) (hk : k < L) (hds : ds < L)
    (hbuf : ∀ p < L, chBuf.getD p 0 = if p < k then (full.getD p []).getD c 0 else 0)
    (hs : s = (full.getD k []).getD c 0) :
    mixOut ds 1 k chBuf s = impulseRead full ds k c := by
  rw [mixOut, delayedSample, impulseRead, hlen]
  rcases le_or_lt ds k with h | h
  · rw [if_pos h]
    have h1 : k + L - ds = (k - ds) + L := by omega
    rw [h1, Nat.add_mod_right, Nat.mod_eq_of_lt (by omega)]
    rcases Nat.eq_zero_or_pos ds with rfl | hpos
    · rw [Nat.sub_zero, getD_set_eq_of_lt _ _ _ _ (by omega), ← hs]
      ring_nf
    · rw [getD_set_neq _ _ _ _ _ (by omega), hbuf (k - ds) (by omega),
        if_pos (by omega)]
      ring_nf
  · rw [if_neg (by omega)]
    have h1 : k + L - ds = k + (L - ds) := by omega
    rw [h1, Nat.mod_eq_of_lt (by omega),
      getD_set_neq _ _ _ _ _ (by omega), hbuf (k + (L - ds)) (by omega),
      if_neg (by omega)]
    ring_nf

theorem processFrames_impulse (L ds : ℕ) (hds : ds < L) (full : List (List ℚ)) :
    ∀ (rem : List (List ℚ)) (k : ℕ) (st : SlapDelay),
      (∀ j < rem.length, rem.getD j [] = full.getD (k + j) []) →
      (∀ f ∈ rem, f.length = 2) →
      k + rem.length < L →
      st.delay_buffer.length = 2 →
      (∀ ch ∈ st.delay_buffer, ch.length = L) →
      st.write_pos = k →
      (∀ c < 2, ∀ p < L, (st.delay_buffer.getD c []).getD p 0 =
        if p < k then (full.getD p []).getD c 0 else 0) →
      ∃ st' out, processFrames ds 1 st rem = some (st', out) ∧
        out.length = rem.length ∧
        ∀ j < rem.length, out.getD j [] =
          [impulseRead full ds (k + j) 0, impulseRead full ds (k + j) 1] := by
  intro rem
  induction rem with
  | nil =>
    intro k st _ _ _ _ _ _ _
    exact ⟨st, [], rfl, rfl, by intro j hj; simp at hj⟩
  | cons f rest ih =>
    intro k st hrem hflen hkL h2 hchlen hwp hbuf
    have hf : f = full.getD k [] := by
      have h0 := hrem 0 (by simp)
      simpa using h0
    have hf2 : f.length = 2 := hflen f (by simp)
    have hinv : EngineInv st L := ⟨h2, hchlen, by omega⟩
    obtain ⟨st₂, o, hfs, hinv₂, hwp₂, holen⟩ :=
      frameStep_inv_some ds 1 L st f hinv (by omega) (by omega)
    obtain ⟨hb₂, hmix, -, -, -, -, -⟩ := frameStep_some_char ds 1 st st₂ f o hfs
    rw [hwp] at hmix hb₂ hwp₂
    obtain ⟨a, b, rfl⟩ : ∃ a b, f = [a, b] := by
      cases f with
      | nil => simp at hf2
      | cons a t =>
        cases t with
        | nil => simp at hf2
        | cons b t2 =>
          cases t2 with
          | nil => exact ⟨a, b, rfl⟩
          | cons x t3 => simp at hf2
    have hmemc : ∀ c < 2, st.delay_buffer.getD c [] ∈ st.delay_buffer := by
      intro c hc
      rw [List.getD_eq_getElem _ _ (by omega)]
      exact List.getElem_mem _
    have hlc : ∀ c < 2, (st.delay_buffer.getD c []).length = L :=
      fun c hc => hchlen _ (hmemc c hc)
    have ho : o = [mixOut ds 1 k (st.delay_buffer.getD 0 []) a,
        mixOut ds 1 k (st.delay_buffer.getD 1 []) b] := by
      rw [hmix]
      rfl
    have hsa : a = (full.getD k []).getD 0 0 := by
      rw [← hf]
      rfl
    have hsb : b = (full.getD k []).getD 1 0 := by
      rw [← hf]
      rfl
    have hoa : mixOut ds 1 k (st.delay_buffer.getD 0 []) a =
        impulseRead full ds k 0 :=
      mixOut_impulse L ds k 0 full _ a (hlc 0 (by omega)) (by omega) hds
        (hbuf 0 (by omega)) hsa
    have hob : mixOut ds 1 k (st.delay_buffer.getD 1 []) b =
        impulseRead full ds k 1 :=
      mixOut_impulse L ds k 1 full _ b (hlc 1 (by omega)) (by omega) hds
        (hbuf 1 (by omega)) hsb
    have hwp₂' : st₂.write_pos = k + 1 := by
      rw [hwp₂, Nat.mod_eq_of_lt (by simp only [List.length_cons] at hkL; omega)]
    have hbuf₂ : ∀ c < 2, ∀ p < L, (st₂.delay_buffer.getD c []).getD p 0 =
        if p < k + 1 then (full.getD p []).getD c 0 else 0 := by
      intro c hc p hp
      have hcond : 0 ≤ c ∧ c < 0 + [a, b].length := by
        simp only [List.length_cons, List.length_nil]
        omega
      rw [hb₂, writeAll_getD, if_pos hcond]
      have hklt : k < (st.delay_buffer.getD c []).length := by
        rw [hlc c hc]
        omega
      rcases eq_or_ne p k with rfl | hne
      · rw [getD_set_eq_of_lt _ _ _ _ hklt, if_pos (by omega), ← hf]
        simp only [Nat.sub_zero]
      · rw [getD_set_neq _ _ _ _ _ (Ne.symm hne), hbuf c hc p hp]
        by_cases hpk : p < k
        · rw [if_pos hpk, if_pos (by omega)]
        · rw [if_neg hpk, if_neg (by omega)]
    obtain ⟨st', outs, hpf, hoslen, hout⟩ := ih (k + 1) st₂
      (by
        intro j hj
        have := hrem (j + 1) (by simp only [List.length_cons]; omega)
        simp only [List.getD_cons_succ] at this
        rw [this]
        congr 1
        omega)
      (fun g hg => hflen g (by simp [hg]))
      (by simp only [List.length_cons] at hkL ⊢; omega)
      hinv₂.1 hinv₂.2.1 hwp₂' hbuf₂
    refine ⟨st', o :: outs, ?_, by simp [hoslen], ?_⟩
    · rw [processFrames]
      simp only [hfs, hpf]
    · intro j hj
      cases j with
      | zero =>
        simp only [List.getD_cons_zero, Nat.add_zero]
        rw [ho, hoa, hob]
      | succ m =>
        simp only [List.getD_cons_succ]
        have hm := hout m (by simp only [List.length_cons] at hj; omega)
        rw [hm]
        have hidx : k + 1 + m = k + (m + 1) := by omega
        rw [hidx]

/-! ## Facts about `configure` -/

theorem configure_delay_buffer (st : SlapDelay) (sr : ℚ) :
    (configure st sr).delay_buffer =
      List.replicate 2 (List.replicate (rustCastUsize (sr * 1.001)) 0) := rfl

theorem bufLen_configure (st : SlapDelay) (sr : ℚ) :
    bufLen (configure st sr) = rustCastUsize (sr * 1.001) := by
  rw [bufLen, configure_delay_buffer]
  simp [List.replicate_succ]

theorem one_le_rustCast (sr : ℚ) (h : 1 ≤ sr) : 1 ≤ rustCastUsize (sr * 1.001) := by
  rw [rustCastUsize]
  have hm := mul_le_mul_of_nonneg_right h (show (0 : ℚ) ≤ 1.001 by norm_num)
  rw [one_mul] at hm
  have h1 : (1 : ℚ) ≤ sr * 1.001 := le_trans (by norm_num) hm
  have h2 : (1 : ℤ) ≤ ⌊sr * 1.001⌋ := by
    rw [Int.le_floor]
    exact_mod_cast h1
  omega

theorem configure_inv (st : SlapDelay) (sr : ℚ) (h : 1 ≤ sr) :
    EngineInv (configure st sr) (bufLen (configure st sr)) := by
  refine ⟨rfl, ?_, ?_⟩
  · intro ch hch
    rw [configure_delay_buffer] at hch
    rw [List.eq_of_mem_replicate hch, List.length_replicate, bufLen_configure]
  · show 0 < bufLen (configure st sr)
    rw [bufLen_configure]
    have h1 := one_le_rustCast sr h
    omega

/-! ## Invariant preservation from a successful block -/

theorem processFrames_inv_preserve (ds : ℕ) (dw : ℚ) :
    ∀ (input : List (List ℚ)) (st st' : SlapDelay) (out : List (List ℚ)) (L : ℕ),
      EngineInv st L → processFrames ds dw st input = some (st', out) →
      EngineInv st' L ∧ st'.write_pos = (st.write_pos + input.length) % L := by
  intro input
  induction input with
  | nil =>
    intro st st' out L hinv h
    rw [processFrames_nil_some] at h
    simp only [Option.some.injEq, Prod.mk.injEq] at h
    obtain ⟨rfl, rfl⟩ := h
    exact ⟨hinv, by rw [List.length_nil, Nat.add_zero, Nat.mod_eq_of_lt hinv.2.2]⟩
  | cons f rest ih =>
    intro st st' out L hinv h
    obtain ⟨st₁, o, outs, hfs, hpf, rfl⟩ :=
      processFrames_cons_some ds dw st st' f rest out h
    obtain ⟨hb, -, hidx, -, -, -, hwp₂⟩ := frameStep_some_char ds dw st st₁ f o hfs
    obtain ⟨h2, hlen, hwp⟩ := hinv
    have hL : 0 < L := by omega
    have hlen₁ : ∀ ch ∈ st₁.delay_buffer, ch.length = L := by
      rw [hb]
      exact writeAll_forall_length st.write_pos L f 0 st.delay_buffer hlen
        (fun j hj => by simp only [Nat.zero_add]; exact hidx j hj)
    have h2₁ : st₁.delay_buffer.length = 2 := by
      rw [hb, writeAll_length, h2]
    have h0 : 0 < st₁.delay_buffer.length := by omega
    have hmem : st₁.delay_buffer.getD 0 [] ∈ st₁.delay_buffer := by
      rw [List.getD_eq_getElem _ _ h0]
      exact List.getElem_mem _
    have hch0 : (st₁.delay_buffer.getD 0 []).length = L := hlen₁ _ hmem
    have hst₁wp : st₁.write_pos = (st.write_pos + 1) % L := by
      rw [hwp₂, hch0]
    have hinv₁ : EngineInv st₁ L := by
      refine ⟨h2₁, hlen₁, ?_⟩
      rw [hst₁wp]
      exact Nat.mod_lt _ hL
    obtain ⟨hinv', hwp'⟩ := ih st₁ st' outs L hinv₁ hpf
    refine ⟨hinv', ?_⟩
    rw [hwp', hst₁wp, List.length_cons, Nat.mod_add_mod]
    congr 1
    omega

/-! ## Evaluation helpers for concrete rational inputs -/

theorem rustCastUsize_eq (x : ℚ) (n : ℕ) (h1 : (n : ℚ) ≤ x) (h2 : x < n + 1) :
    rustCastUsize x = n := by
  rw [rustCastUsize]
  have hfl : ⌊x⌋ = (n : ℤ) := by
    rw [Int.floor_eq_iff]
    constructor
    · exact_mod_cast h1
    · push_cast
      exact h2
  rw [hfl]
  simp

theorem configure_eq (st : SlapDelay) (sr : ℚ) (n : ℕ)
    (h : rustCastUsize (sr * 1.001) = n) :
    configure st sr = ⟨List.replicate 2 (List.replicate n 0), 0⟩ := by
  rw [← h]
  rfl

theorem delayTimeSamples_eq (dt sr : ℚ) (n : ℕ)
    (h1 : (n : ℚ) ≤ dt * 0.001 * sr) (h2 : dt * 0.001 * sr < n + 1) :
    delayTimeSamples dt sr = n := by
  rw [delayTimeSamples]
  exact rustCastUsize_eq _ n h1 h2

/-! ## Claim theorems -/

/-- C1, counterexample.  The claim says the delay length in samples is always
clamped into `[0, buffer_length - 1]` before indexing, so the read-position
computation never under- or over-flows.  The code has no clamp: with a
buffer of 4 samples and a malformed `delay_time = 10000` ms at sample rate 4,
`delay_time_samples = 40` exceeds `buffer_length - 1 = 3`, and the `usize`
subtraction `write_pos + len - delay_time_samples` underflows, so `process`
panics (modelled as `none`). -/
theorem C1_counterexample :
    delayTimeSamples 10000 4 = 40 ∧
    bufLen (configure freshEngine 4) = 4 ∧
    ¬ delayTimeSamples 10000 4 ≤ bufLen (configure freshEngine 4) - 1 ∧
    process (configure freshEngine 4) 10000 4 1 [[1, 1]] = none := by
  have hds : delayTimeSamples 10000 4 = 40 :=
    delayTimeSamples_eq 10000 4 40 (by norm_num) (by norm_num)
  have hbl : bufLen (configure freshEngine 4) = 4 := by
    rw [bufLen_configure]
    exact rustCastUsize_eq _ 4 (by norm_num) (by norm_num)
  have hcfg : configure freshEngine 4 = ⟨[[0, 0, 0, 0], [0, 0, 0, 0]], 0⟩ := by
    rw [configure_eq freshEngine 4 4 (rustCastUsize_eq _ 4 (by norm_num)
      (by norm_num))]
    rfl
  refine ⟨hds, hbl, ?_, ?_⟩
  · rw [hds, hbl]
    decide
  · rw [process, hds, hcfg]
    decide

/-- C1, amended.  `process` performs no clamping of `delay_time_samples`,
but whenever the delay-time parameter is inside its declared range
`[1, 1000]` ms, the transport sample rate equals the configured rate and the
rate is at least 1, the computed `delay_time_samples` is at most
`buffer_length` and processing any stereo block on a freshly configured
engine succeeds with every index in bounds (no underflow, no panic). -/
theorem C1_inrange_safe :
    ∀ (sr dt dw : ℚ) (input : List (List ℚ)), 1 ≤ sr → 1 ≤ dt → dt ≤ 1000 →
      (∀ f ∈ input, f.length ≤ 2) →
      delayTimeSamples dt sr ≤ bufLen (configure freshEngine sr) ∧
      (process (configure freshEngine sr) dt sr dw input).isSome := by
  intro sr dt dw input hsr hdt1 hdt2 hch
  have hds : delayTimeSamples dt sr ≤ bufLen (configure freshEngine sr) := by
    rw [bufLen_configure, delayTimeSamples, rustCastUsize, rustCastUsize]
    have ha : dt * 0.001 ≤ 1 := by linarith
    have hsr0 : (0 : ℚ) ≤ sr := by linarith
    have hb : dt * 0.001 * sr ≤ 1 * sr := mul_le_mul_of_nonneg_right ha hsr0
    have hc : (1 : ℚ) * sr ≤ sr * 1.001 := by nlinarith
    have hfl := Int.floor_le_floor (le_trans hb hc)
    omega
  refine ⟨hds, ?_⟩
  rw [process]
  obtain ⟨st', out, hp, -, -, -⟩ := processFrames_inv_some (delayTimeSamples dt sr)
    dw (bufLen (configure freshEngine sr)) hds input (configure freshEngine sr)
    (configure_inv freshEngine sr hsr) hch
  rw [hp]
  rfl

/-- C1, witness for the amended theorem at `sr = 1`, `dt = 1 ms`. -/
theorem C1_inrange_safe_witness :
    delayTimeSamples 1 1 ≤ bufLen (configure freshEngine 1) ∧
    (process (configure freshEngine 1) 1 1 (1/2) [[3, 4]]).isSome :=
  C1_inrange_safe 1 1 (1/2) [[3, 4]] (by norm_num) (by norm_num) (by norm_num)
    (by decide)

/-- C3, counterexample.  The claim says `configure` sets each buffer length
to `ceil(sample_rate * 1.001)`.  At `sample_rate = 100` the code's
`(100 * 1.001) as usize` truncates `100.1` to `100`, while the ceiling
is `101`. -/
theorem C3_counterexample :
    bufLen (configure freshEngine 100) = 100 ∧
    (⌈(100 : ℚ) * 1.001⌉).toNat = 101 := by
  constructor
  · rw [bufLen_configure]
    exact rustCastUsize_eq _ 100 (by norm_num) (by norm_num)
  · have h : ⌈(100 : ℚ) * 1.001⌉ = (101 : ℤ) := by
      rw [Int.ceil_eq_iff]
      constructor
      · push_cast
        norm_num
      · push_cast
        norm_num
    rw [h]
    rfl

/-- C3, amended.  For every positive sample rate, `configure` sets each of
the two channel buffers to length `floor(sample_rate * 1.001)` (the Rust
`as usize` cast truncates, it does not take the ceiling), fills every
element with zero, and resets the write cursor to 0. -/
theorem C3_floor_configure :
    ∀ (st : SlapDelay) (sr : ℚ), 0 < sr →
      (configure st sr).delay_buffer.length = 2 ∧
      (∀ ch ∈ (configure st sr).delay_buffer,
        ch.length = (⌊sr * 1.001⌋).toNat ∧ ∀ x ∈ ch, x = 0) ∧
      (configure st sr).write_pos = 0 := by
  intro st sr _
  refine ⟨rfl, ?_, rfl⟩
  intro ch hch
  rw [configure_delay_buffer] at hch
  rw [List.eq_of_mem_replicate hch]
  exact ⟨by rw [List.length_replicate]; rfl,
    fun x hx => List.eq_of_mem_replicate hx⟩

/-- C3, witness for the amended theorem at `sr = 2`. -/
theorem C3_floor_configure_witness :
    (configure freshEngine 2).delay_buffer.length = 2 ∧
    (configure freshEngine 2).write_pos = 0 :=
  ⟨(C3_floor_configure freshEngine 2 (by norm_num)).1,
    (C3_floor_configure freshEngine 2 (by norm_num)).2.2⟩

/-- C4, counterexample.  The claim says buffer_length is at least 1 after any
`configure` call, even with degenerate sample rates.  But
`configure(1/2)` computes `(0.5 * 1.001) as usize = 0`, leaving empty
buffers, and the next `process` call hits a remainder by zero / empty-buffer
write, i.e. panics (modelled as `none`). -/
theorem C4_counterexample :
    bufLen (configure freshEngine (1/2)) = 0 ∧
    process (configure freshEngine (1/2)) 120 (1/2) (1/10) [[0, 0]] = none := by
  constructor
  · rw [bufLen_configure]
    exact rustCastUsize_eq _ 0 (by norm_num) (by norm_num)
  · have hds : delayTimeSamples 120 (1/2) = 0 :=
      delayTimeSamples_eq 120 (1/2) 0 (by norm_num) (by norm_num)
    have hcfg : configure freshEngine (1/2) = ⟨[[], []], 0⟩ := by
      rw [configure_eq freshEngine (1/2) 0 (rustCastUsize_eq _ 0 (by norm_num)
        (by norm_num))]
      rfl
    rw [process, hds, hcfg]
    decide

/-- C4, amended.  `configure` has no clamp, so `buffer_length ≥ 1` only
holds for sample rates with `sample_rate * 1.001 ≥ 1`; in particular it
holds for every `sample_rate ≥ 1` (hence every real audio rate), and then
the moduli in `process` are by a positive length. -/
theorem C4_minlen :
    ∀ (st : SlapDelay) (sr : ℚ), 1 ≤ sr → 1 ≤ bufLen (configure st sr) := by
  intro st sr h
  rw [bufLen_configure]
  exact one_le_rustCast sr h

/-- C4, witness for the amended theorem at `sr = 1`. -/
theorem C4_minlen_witness : 1 ≤ bufLen (configure freshEngine 1) :=
  C4_minlen freshEngine 1 (by norm_num)

/-- C9: `configure` is idempotent.  Calling it twice with the same sample
rate yields exactly the same state as calling it once (the method overwrites
both fields unconditionally), the cursor is reset to 0, and the buffer
length agrees between the two calls. -/
theorem C9_configure_idempotent :
    ∀ (st : SlapDelay) (sr : ℚ),
      configure (configure st sr) sr = configure st sr ∧
      (configure st sr).write_pos = 0 ∧
      bufLen (configure (configure st sr) sr) = bufLen (configure st sr) :=
  fun _ _ => ⟨rfl, rfl, rfl⟩

/-- C8, counterexample.  The claim's invariant `write_cursor ∈
[0, buffer_length)` fails right after `configure` with the degenerate (but
positive, hence spec-admissible) sample rate `1/2`: the buffer length
becomes 0 while the cursor is 0, so the invariant is violated. -/
theorem C8_counterexample :
    bufLen (configure freshEngine (1/2)) = 0 ∧
    (configure freshEngine (1/2)).write_pos = 0 ∧
    ¬ EngineInv (configure freshEngine (1/2))
      (bufLen (configure freshEngine (1/2))) := by
  have h0 : rustCastUsize ((1/2 : ℚ) * 1.001) = 0 :=
    rustCastUsize_eq _ 0 (by norm_num) (by norm_num)
  refine ⟨?_, rfl, ?_⟩
  · rw [bufLen_configure, h0]
  · intro hinv
    have h := hinv.2.2
    rw [bufLen_configure, h0] at h
    exact absurd h (by decide)

/-- C8, amended.  For sample rates at least 1, `configure` establishes the
invariant (two channel buffers of identical length, cursor in
`[0, buffer_length)`), and any successful `process` call preserves it while
advancing the shared cursor exactly once per frame modulo the buffer
length, i.e. by `input.length` frames in total. -/
theorem C8_invariant :
    (∀ (st : SlapDelay) (sr : ℚ), 1 ≤ sr →
      EngineInv (configure st sr) (bufLen (configure st sr))) ∧
    (∀ (st : SlapDelay) (L : ℕ) (dt sr dw : ℚ) (input : List (List ℚ))
        (st' : SlapDelay) (out : List (List ℚ)),
      EngineInv st L → process st dt sr dw input = some (st', out) →
      EngineInv st' L ∧
        st'.write_pos = (st.write_pos + input.length) % L) := by
  constructor
  · exact fun st sr h => configure_inv st sr h
  · intro st L dt sr dw input st' out hinv hp
    rw [process] at hp
    exact processFrames_inv_preserve (delayTimeSamples dt sr) dw input
      st st' out L hinv hp

/-- C8, witness for the amended theorem: a configured engine at `sr = 1`
and one concrete processed block. -/
theorem C8_invariant_witness :
    EngineInv (configure freshEngine 1) (bufLen (configure freshEngine 1)) ∧
    (EngineInv (⟨[[5], [7]], 0⟩ : SlapDelay) 1 ∧
      (⟨[[5], [7]], 0⟩ : SlapDelay).write_pos =
        ((configure freshEngine 1).write_pos +
          ([[5, 7]] : List (List ℚ)).length) % 1) := by
  have hcfg : configure freshEngine 1 = ⟨[[0], [0]], 0⟩ := by
    rw [configure_eq freshEngine 1 1 (rustCastUsize_eq _ 1 (by norm_num)
      (by norm_num))]
    rfl
  have hds : delayTimeSamples 1 1 = 0 :=
    delayTimeSamples_eq 1 1 0 (by norm_num) (by norm_num)
  refine ⟨C8_invariant.1 freshEngine 1 (by norm_num),
    C8_invariant.2 (configure freshEngine 1) 1 1 1 0 [[5, 7]]
      ⟨[[5], [7]], 0⟩ [[5, 7]] ?_ ?_⟩
  · rw [hcfg]
    exact ⟨rfl, by decide, by decide⟩
  · rw [process, hds, hcfg]
    norm_num [processFrames, frameStep, processChannelsAux, subUsize, modUsize]

/-- C10: a successful `process` call changes only the delay-line contents
and the write cursor.  The number of channel buffers is unchanged (in
particular it stays 2), and every channel buffer keeps its length; the
state has no other fields. -/
theorem C10_frame_effect :
    ∀ (st : SlapDelay) (dt sr dw : ℚ) (input : List (List ℚ))
      (st' : SlapDelay) (out : List (List ℚ)),
      process st dt sr dw input = some (st', out) →
      st'.delay_buffer.length = st.delay_buffer.length ∧
      (st.delay_buffer.length = 2 → st'.delay_buffer.length = 2) ∧
      (∀ c, (st'.delay_buffer.getD c []).length =
        (st.delay_buffer.getD c []).length) := by
  intro st dt sr dw input st' out h
  rw [process] at h
  obtain ⟨g1, g2, -⟩ := processFrames_some_struct (delayTimeSamples dt sr) dw
    input st st' out h
  exact ⟨g1, fun h2 => by rw [g1, h2], g2⟩

/-- C10, witness at a concrete processed block. -/
theorem C10_frame_effect_witness :
    (⟨[[1, 0], [1, 0]], 1⟩ : SlapDelay).delay_buffer.length =
      (⟨[[0, 0], [0, 0]], 0⟩ : SlapDelay).delay_buffer.length ∧
    ((⟨[[1, 0], [1, 0]], 1⟩ : SlapDelay).delay_buffer.getD 0 []).length =
      ((⟨[[0, 0], [0, 0]], 0⟩ : SlapDelay).delay_buffer.getD 0 []).length := by
  have hp : process (⟨[[0, 0], [0, 0]], 0⟩ : SlapDelay) 1 2000 (1/4) [[1, 1]] =
      some (⟨[[1, 0], [1, 0]], 1⟩, [[1, 1]]) := by
    have hds : delayTimeSamples 1 2000 = 2 :=
      delayTimeSamples_eq 1 2000 2 (by norm_num) (by norm_num)
    rw [process, hds]
    norm_num [processFrames, frameStep, processChannelsAux, subUsize, modUsize]
  exact ⟨(C10_frame_effect ⟨[[0, 0], [0, 0]], 0⟩ 1 2000 (1/4) [[1, 1]]
      ⟨[[1, 0], [1, 0]], 1⟩ [[1, 1]] hp).1,
    (C10_frame_effect ⟨[[0, 0], [0, 0]], 0⟩ 1 2000 (1/4) [[1, 1]]
      ⟨[[1, 0], [1, 0]], 1⟩ [[1, 1]] hp).2.2 0⟩

/-- C5: for every successful `process` call, frame `i`, channel `c`, the
output sample is the linear crossfade
`in * (1 - dry_wet) + delayed * dry_wet`, where `delayed` is the sample read
from the delay line (after the dry write) in the state reached before frame
`i`; `dry_wet = 0` gives exact dry pass-through and `dry_wet = 1` gives the
delayed sample alone.  (`dry_wet` is the block-constant value the code read
once per block.) -/
theorem C5_mix_formula :
    ∀ (st : SlapDelay) (dt sr dw : ℚ) (input : List (List ℚ)) (st' : SlapDelay)
      (out : List (List ℚ)) (i c : ℕ),
      process st dt sr dw input = some (st', out) → i < input.length →
      c < (input.getD i []).length →
      (out.getD i []).getD c 0 =
        (input.getD i []).getD c 0 * (1 - dw) +
          delayedSample (delayTimeSamples dt sr)
            (stateAfter (delayTimeSamples dt sr) dw st input i).write_pos
            ((stateAfter (delayTimeSamples dt sr) dw st input i).delay_buffer.getD c [])
            ((input.getD i []).getD c 0) * dw ∧
      (dw = 0 → (out.getD i []).getD c 0 = (input.getD i []).getD c 0) ∧
      (dw = 1 → (out.getD i []).getD c 0 =
        delayedSample (delayTimeSamples dt sr)
          (stateAfter (delayTimeSamples dt sr) dw st input i).write_pos
          ((stateAfter (delayTimeSamples dt sr) dw st input i).delay_buffer.getD c [])
          ((input.getD i []).getD c 0)) := by
  intro st dt sr dw input st' out i c hp hi hc
  rw [process] at hp
  have hout := processFrames_some_out (delayTimeSamples dt sr) dw input
    st st' out hp i hi
  have hmain : (out.getD i []).getD c 0 =
      mixOut (delayTimeSamples dt sr) dw
        (stateAfter (delayTimeSamples dt sr) dw st input i).write_pos
        ((stateAfter (delayTimeSamples dt sr) dw st input i).delay_buffer.getD c [])
        ((input.getD i []).getD c 0) := by
    rw [hout]
    have hg := mixFrame_getD (delayTimeSamples dt sr) dw
      (stateAfter (delayTimeSamples dt sr) dw st input i).write_pos
      (stateAfter (delayTimeSamples dt sr) dw st input i).delay_buffer
      (input.getD i []) 0 c hc
    simpa using hg
  refine ⟨by rw [hmain, mixOut], ?_, ?_⟩
  · intro h0
    subst h0
    rw [hmain, mixOut]
    ring_nf
  · intro h1
    subst h1
    rw [hmain, mixOut]
    ring_nf

/-- C5, witness at a concrete block (`dt = 1 ms`, `sr = 1500`, so one delay
sample; `dry_wet = 1/2`). -/
theorem C5_mix_formula_witness :
    (([[3/2, 2]] : List (List ℚ)).getD 0 []).getD 0 0 =
      (([[3, 4]] : List (List ℚ)).getD 0 []).getD 0 0 * (1 - 1/2) +
        delayedSample (delayTimeSamples 1 1500)
          (stateAfter (delayTimeSamples 1 1500) (1/2)
            ⟨[[0, 0], [0, 0]], 0⟩ [[3, 4]] 0).write_pos
          ((stateAfter (delayTimeSamples 1 1500) (1/2)
            ⟨[[0, 0], [0, 0]], 0⟩ [[3, 4]] 0).delay_buffer.getD 0 [])
          ((([[3, 4]] : List (List ℚ)).getD 0 []).getD 0 0) * (1/2) := by
  have hds : delayTimeSamples 1 1500 = 1 :=
    delayTimeSamples_eq 1 1500 1 (by norm_num) (by norm_num)
  have hp : process (⟨[[0, 0], [0, 0]], 0⟩ : SlapDelay) 1 1500 (1/2) [[3, 4]] =
      some (⟨[[3, 0], [4, 0]], 1⟩, [[3/2, 2]]) := by
    rw [process, hds]
    norm_num [processFrames, frameStep, processChannelsAux, subUsize, modUsize]
  exact (C5_mix_formula ⟨[[0, 0], [0, 0]], 0⟩ 1 1500 (1/2) [[3, 4]]
    ⟨[[3, 0], [4, 0]], 1⟩ [[3/2, 2]] 0 0 hp (by decide) (by decide)).1

/-- C6: (a) each frame step stores the dry input sample in
`channel_buffers[c][write_cursor]` before the read, so the delay line holds
only dry history; (b) consequently, when `delay_samples = 0` and
`dry_wet = 1`, the freshly written sample is read straight back and the
output block equals the input block frame by frame. -/
theorem C6_write_then_read :
    (∀ (ds : ℕ) (dw : ℚ) (st st₂ : SlapDelay) (f o : List ℚ),
      frameStep ds dw st f = some (st₂, o) →
      ∀ c < f.length,
        (st₂.delay_buffer.getD c []).getD st.write_pos 0 = f.getD c 0) ∧
    (∀ (dt sr : ℚ) (st st' : SlapDelay) (input out : List (List ℚ)),
      delayTimeSamples dt sr = 0 →
      process st dt sr 1 input = some (st', out) → out = input) := by
  constructor
  · intro ds dw st st₂ f o h c hc
    obtain ⟨hb, -, -, hval, -, -, -⟩ := frameStep_some_char ds dw st st₂ f o h
    have hwplt := (hval c hc).1
    rw [hb, writeAll_getD, if_pos (by omega),
      getD_set_eq_of_lt _ _ _ _ hwplt, Nat.sub_zero]
  · intro dt sr st st' input out h0 hp
    rw [process, h0] at hp
    exact processFrames_zero_delay input st st' out hp

/-- C6, witness: one concrete frame step (dry write visible at the old
cursor) and one concrete zero-delay full-wet block (output equals input). -/
theorem C6_write_then_read_witness :
    ((⟨[[5, 0], [6, 0]], 1⟩ : SlapDelay).delay_buffer.getD 0 []).getD
        (⟨[[0, 0], [0, 0]], 0⟩ : SlapDelay).write_pos 0 =
      ([5, 6] : List ℚ).getD 0 0 ∧
    ([[7, 8], [9, 10]] : List (List ℚ)) = [[7, 8], [9, 10]] := by
  have hfs : frameStep 0 (1/2) ⟨[[0, 0], [0, 0]], 0⟩ [5, 6] =
      some (⟨[[5, 0], [6, 0]], 1⟩, [5, 6]) := by
    norm_num [frameStep, processChannelsAux, subUsize, modUsize]
  have hds : delayTimeSamples 1 100 = 0 :=
    delayTimeSamples_eq 1 100 0 (by norm_num) (by norm_num)
  have hp : process (⟨[[0, 0], [0, 0]], 0⟩ : SlapDelay) 1 100 1
      [[7, 8], [9, 10]] = some (⟨[[7, 9], [8, 10]], 0⟩, [[7, 8], [9, 10]]) := by
    rw [process, hds]
    norm_num [processFrames, frameStep, processChannelsAux, subUsize, modUsize]
  exact ⟨C6_write_then_read.1 0 (1/2) ⟨[[0, 0], [0, 0]], 0⟩
      ⟨[[5, 0], [6, 0]], 1⟩ [5, 6] [5, 6] hfs 0 (by decide),
    C6_write_then_read.2 1 100 ⟨[[0, 0], [0, 0]], 0⟩ ⟨[[7, 9], [8, 10]], 0⟩
      [[7, 8], [9, 10]] [[7, 8], [9, 10]] hds hp⟩

/-- Evaluation of `round` on an explicit rational. -/
theorem round_rat_eq (x : ℚ) (n : ℤ) (h1 : (n : ℚ) ≤ x + 1/2)
    (h2 : x + 1/2 < n + 1) : round x = n := by
  rw [round_eq, Int.floor_eq_iff]
  constructor
  · exact_mod_cast h1
  · exact_mod_cast h2

/-- C2, counterexample.  The spec's per-frame algorithm, fed the per-frame
parameter streams `delay_time_ms = [1, 1]` and `dry_wet = [0, 1]` at
`sample_rate = 1000` on a two-frame block, produces `[[1], [1]]`.  The code
reads `delay_time` and `dry_wet` once per block, and NO pair of block
constants reproduces that output on the same state and input: the claim
that `process` indexes its parameter streams per frame is false. -/
theorem C2_counterexample :
    (specProcess 1000 ⟨[[0, 0], [0, 0]], 0⟩ [[1], [2]] [1, 1] [0, 1]).2 =
      [[1], [1]] ∧
    ¬ ∃ dt sr dw : ℚ,
      (process ⟨[[0, 0], [0, 0]], 0⟩ dt sr dw [[1], [2]]).map Prod.snd =
        some [[1], [1]] := by
  constructor
  · have hr : round ((1 : ℚ) * 0.001 * 1000) = 1 :=
      round_rat_eq _ 1 (by norm_num) (by norm_num)
    norm_num [specProcess, specChannels, specDelaySamples, bufLen, hr]
  · rintro ⟨dt, sr, dw, h⟩
    rw [process] at h
    have e0 : processFrames 0 dw ⟨[[0, 0], [0, 0]], 0⟩ [[1], [2]] =
        some (⟨[[1, 2], [0, 0]], 0⟩,
          [[1 * (1 - dw) + 1 * dw], [2 * (1 - dw) + 2 * dw]]) := rfl
    have e1 : processFrames 1 dw ⟨[[0, 0], [0, 0]], 0⟩ [[1], [2]] =
        some (⟨[[1, 2], [0, 0]], 0⟩,
          [[1 * (1 - dw) + 0 * dw], [2 * (1 - dw) + 1 * dw]]) := rfl
    have e2 : processFrames 2 dw ⟨[[0, 0], [0, 0]], 0⟩ [[1], [2]] =
        some (⟨[[1, 2], [0, 0]], 0⟩,
          [[1 * (1 - dw) + 1 * dw], [2 * (1 - dw) + 2 * dw]]) := rfl
    rcases hnn : delayTimeSamples dt sr with _ | _ | _ | m
    · rw [hnn, e0] at h
      simp only [Option.map_some', Option.some.injEq, List.cons.injEq,
        and_true] at h
      obtain ⟨-, hb⟩ := h
      linarith
    · rw [hnn, e1] at h
      simp only [Option.map_some', Option.some.injEq, List.cons.injEq,
        and_true] at h
      obtain ⟨ha, hb⟩ := h
      linarith
    · rw [hnn, e2] at h
      simp only [Option.map_some', Option.some.injEq, List.cons.injEq,
        and_true] at h
      obtain ⟨-, hb⟩ := h
      linarith
    · have e3 : processFrames (m + 3) dw ⟨[[0, 0], [0, 0]], 0⟩ [[1], [2]] =
          none := by
        have hsub : subUsize 2 (m + 3) = none := by
          rw [subUsize, if_neg (by omega)]
        simp [processFrames, frameStep, processChannelsAux, hsub]
      rw [hnn, e3] at h
      simp at h

/-- C2, amended.  `process` reads `delay_time` (one smoothing step) and
`dry_wet` once per block: every frame of a successful block is processed by
the same `frameStep` with the single block-level delay count
`delayTimeSamples dt sr` and the single block-level `dry_wet` value, so
within-block parameter changes take effect only at the next block. -/
theorem C2_block_constant_params :
    ∀ (st : SlapDelay) (dt sr dw : ℚ) (input : List (List ℚ)) (st' : SlapDelay)
      (out : List (List ℚ)),
      process st dt sr dw input = some (st', out) →
      out.length = input.length ∧
      ∃ sts : ℕ → SlapDelay, sts 0 = st ∧ sts input.length = st' ∧
        ∀ i < input.length,
          frameStep (delayTimeSamples dt sr) dw (sts i) (input.getD i []) =
            some (sts (i + 1), out.getD i []) := by
  intro st dt sr dw input st' out hp
  rw [process] at hp
  exact processFrames_some_trace (delayTimeSamples dt sr) dw input st st' out hp

/-- C2, witness for the amended theorem at a concrete two-frame block. -/
theorem C2_block_constant_params_witness :
    ([[2/3], [5/3]] : List (List ℚ)).length =
      ([[1], [2]] : List (List ℚ)).length := by
  have hds : delayTimeSamples 1 1500 = 1 :=
    delayTimeSamples_eq 1 1500 1 (by norm_num) (by norm_num)
  have hp : process (⟨[[0, 0], [0, 0]], 0⟩ : SlapDelay) 1 1500 (1/3)
      [[1], [2]] = some (⟨[[1, 2], [0, 0]], 0⟩, [[2/3], [5/3]]) := by
    rw [process, hds]
    norm_num [processFrames, frameStep, processChannelsAux, subUsize, modUsize]
  exact (C2_block_constant_params ⟨[[0, 0], [0, 0]], 0⟩ 1 1500 (1/3) [[1], [2]]
    ⟨[[1, 2], [0, 0]], 0⟩ [[2/3], [5/3]] hp).1

/-- C7: with `configure(48000)` the buffer length is 48048; a unit impulse at
frame 0 of channel 0 (silence elsewhere), played with `delay_time = 1000` ms
and `dry_wet = 1` over 48002 frames, comes out as silence on frames
0..47999, exactly `1.0` on frame `48000 = round(1000 * 0.001 * 48000)` of
channel 0, and silence afterwards. -/
theorem C7_boundary_impulse :
    bufLen (configure freshEngine 48000) = 48048 ∧
    (process (configure freshEngine 48000) 1000 48000 1
        ([1, 0] :: List.replicate 48001 [0, 0])).map Prod.snd =
      some (List.replicate 48000 [0, 0] ++ [[1, 0], [0, 0]]) := by
  have hn : rustCastUsize ((48000 : ℚ) * 1.001) = 48048 :=
    rustCastUsize_eq _ 48048 (by norm_num) (by norm_num)
  have hbl : bufLen (configure freshEngine 48000) = 48048 := by
    rw [bufLen_configure, hn]
  have hds : delayTimeSamples 1000 48000 = 48000 :=
    delayTimeSamples_eq 1000 48000 48000 (by norm_num) (by norm_num)
  have hcfg : configure freshEngine 48000 =
      ⟨List.replicate 2 (List.replicate 48048 0), 0⟩ :=
    configure_eq freshEngine 48000 48048 hn
  refine ⟨hbl, ?_⟩
  rw [process, hds, hcfg]
  set inp : List (List ℚ) := [1, 0] :: List.replicate 48001 [0, 0] with hinp
  set T : List (List ℚ) := List.replicate 48000 [0, 0] ++ [[1, 0], [0, 0]]
    with hT
  have hlen_in : inp.length = 48002 := by
    rw [hinp, List.length_cons, List.length_replicate]
  obtain ⟨st', out, hp, hlen, hout⟩ := processFrames_impulse 48048 48000
    (by omega) inp inp 0 ⟨List.replicate 2 (List.replicate 48048 0), 0⟩
    (fun j hj => by rw [Nat.zero_add])
    (by
      intro f hf
      rw [hinp] at hf
      rcases List.mem_cons.1 hf with rfl | hf2
      · rfl
      · rw [List.eq_of_mem_replicate hf2]
        rfl)
    (by rw [Nat.zero_add, hlen_in]; omega)
    (by
      show (List.replicate 2 (List.replicate 48048 (0 : ℚ))).length = 2
      rw [List.length_replicate])
    (by
      intro ch hch
      have hch' : ch ∈ List.replicate 2 (List.replicate 48048 (0 : ℚ)) := hch
      rw [List.eq_of_mem_replicate hch', List.length_replicate])
    rfl
    (by
      intro c hc p hp2
      rw [if_neg (by omega)]
      have hgc : (⟨List.replicate 2 (List.replicate 48048 (0 : ℚ)), 0⟩ :
          SlapDelay).delay_buffer.getD c [] = List.replicate 48048 0 :=
        getD_replicate_of_lt 2 c _ [] hc
      rw [hgc, getD_replicate_of_lt _ _ _ _ hp2])
  rw [hp]
  simp only [Option.map_some', Option.some.injEq]
  have hol : out.length = 48002 := by
    rw [hlen, hlen_in]
  apply listEq_of_getD ([] : List ℚ)
  · rw [hol, hT, List.length_append, List.length_replicate]
    rfl
  · intro k hk
    rw [hol] at hk
    have hk' : k < inp.length := by
      rw [hlen_in]
      exact hk
    rw [hout k hk', Nat.zero_add, hT]
    rcases lt_trichotomy k 48000 with hlt | heq | hgt
    · simp only [impulseRead]
      rw [if_neg (by omega), if_neg (by omega),
        List.getD_append _ _ _ _ (by rw [List.length_replicate]; exact hlt),
        getD_replicate_of_lt _ _ _ _ hlt]
    · subst heq
      simp only [impulseRead]
      rw [if_pos (by omega), if_pos (by omega), Nat.sub_self,
        List.getD_append_right _ _ _ _ (by rw [List.length_replicate]),
        List.length_replicate, Nat.sub_self, hinp]
      rfl
    · have hk1 : k = 48001 := by omega
      subst hk1
      simp only [impulseRead]
      rw [if_pos (by omega), if_pos (by omega),
        List.getD_append_right _ _ _ _ (by rw [List.length_replicate]; omega),
        List.length_replicate,
        show 48001 - 48000 = 0 + 1 from rfl, hinp, List.getD_cons_succ,
        List.getD_cons_succ, getD_replicate_of_lt _ _ _ _ (by omega)]
      rfl
